import Mathlib

/-!
Verification development for the seekr hybrid code-search engine.

Shallow embedding of the core data model and operations:
- `VectorStore` (src/vector_store/mod.rs): add/save contract;
- `Chunker` (src/chunker/mod.rs): AST extraction and sliding-window fallback;
- `HybridRanker` (src/ranker/mod.rs): RRF fusion and min-max normalization;
- `FileCache` (src/cache/mod.rs): New/Modified/Unchanged classification;
- `SemanticIndexer` (src/semantic/mod.rs): embedding-input truncation.

Machine integers (`usize`, `u64`) are modelled as `Nat`; `f32` scores are
modelled as exact rationals `ℚ`; byte strings are `List Nat`; fallible Rust
functions return `Except`/`Option`.
-/

namespace Seekr

/-! ## Data model -/

/-- Languages recognized by the chunker (chunker/languages.rs). -/
inductive Language where
  | rust
  | python
  | javascript
  | typescript
  | go
  | unknown
deriving DecidableEq

/-- Chunk kinds (chunker/mod.rs `ChunkType`); `block` is produced only by the
sliding-window fallback. -/
inductive ChunkType where
  | function
  | cls
  | method
  | struc
  | impl
  | module
  | block
deriving DecidableEq

/-- A semantic chunk of code (chunker/mod.rs `CodeChunk`).  `content` is the
byte string of the chunk; `start_line`/`end_line` are 1-indexed. -/
structure CodeChunk where
  file_path : String
  language : Language
  chunk_type : ChunkType
  name : Option String
  start_byte : Nat
  end_byte : Nat
  start_line : Nat
  end_line : Nat
  content : List Nat
deriving DecidableEq

/-- Sidecar metadata row stored with each vector (vector_store/mod.rs
`ChunkMetadata`). -/
structure ChunkMetadata where
  file_path : String
  chunk_type : String
  name : Option String
  start_line : Nat
  end_line : Nat
  language : String
  content_preview : String
deriving DecidableEq

/-! ## VectorStore (src/vector_store/mod.rs)

The ANN engine (usearch) is external; we model the index as the list of
`(key, vector)` pairs inserted into it, together with its reserved capacity.
Vectors are an abstract type `α`. -/

structure VectorStoreState (α : Type) where
  indexEntries : List (Nat × α)
  capacity : Nat
  metadata : List ChunkMetadata

/-- VectorStore::add (vector_store/mod.rs:80-98), success path:
`key = metadata.len()`; if `key >= capacity` reserve
`max(capacity + 1000, 1000)`; insert `(key, vector)` into the ANN index;
push the metadata; return the key. -/
def VectorStoreState.add (s : VectorStoreState α) (vector : α) (m : ChunkMetadata) :
    Nat × VectorStoreState α :=
  let key := s.metadata.length
  let cap := if s.capacity ≤ key then max (s.capacity + 1000) 1000 else s.capacity
  (key,
    { indexEntries := s.indexEntries ++ [(key, vector)]
      capacity := cap
      metadata := s.metadata ++ [m] })

/-- A sequence of successful `add` calls, returning the keys in call order
(models e.g. `add_batch`, vector_store/mod.rs:101-106). -/
def VectorStoreState.addAll (s : VectorStoreState α) :
    List (α × ChunkMetadata) → List Nat × VectorStoreState α
  | [] => ([], s)
  | (v, m) :: rest =>
    let r := s.add v m
    let r2 := r.2.addAll rest
    (r.1 :: r2.1, r2.2)

/-! ## Chunker (src/chunker/mod.rs)

Source text is a byte string `List Nat`; the newline byte is 10.  The
tree-sitter parser is an external collaborator: a parse outcome is either a
failure (`Parser::parse` or language setup failing, chunker/mod.rs:116-127)
or a concrete syntax tree whose nodes carry byte offsets and row numbers. -/

/-- Number of newline bytes, modelling `str::matches('\n').count()`. -/
def countNL (l : List Nat) : Nat := l.count 10

/-- Rust byte-range slice `content[s..e]`. -/
def byteSlice (l : List Nat) (s e : Nat) : List Nat := (l.take e).drop s

/-- A tree-sitter syntax-tree node: kind string, byte span, 0-indexed
start/end rows, the text of the child labeled "name" (already sliced out of
the source, modelling `extract_name`, chunker/mod.rs:216-233), and children. -/
inductive TSNode where
  | mk (kind : String) (start_byte end_byte startRow endRow : Nat)
      (nameText : Option String) (children : List TSNode)

/-- Tree-sitter's documented coordinate invariant, which the chunker relies
on: a node's `start_position().row` is the number of newline bytes strictly
before `start_byte`, and this holds recursively for all children. -/
inductive TSNode.WF (content : List Nat) : TSNode → Prop
  | mk {kind sb eb sr er nameText children} :
      sr = countNL (content.take sb) →
      (∀ c ∈ children, TSNode.WF content c) →
      TSNode.WF content (.mk kind sb eb sr er nameText children)

/-- Chunker::node_to_chunk_type (chunker/mod.rs:186-213). -/
def node_to_chunk_type (kind : String) (language : Language) : Option ChunkType :=
  match language with
  | .rust =>
    match kind with
    | "function_item" => some .function
    | "impl_item" => some .impl
    | "struct_item" => some .struc
    | "mod_item" => some .module
    | _ => none
  | .python =>
    match kind with
    | "function_definition" => some .function
    | "class_definition" => some .cls
    | _ => none
  | .javascript | .typescript =>
    match kind with
    | "function_declaration" | "arrow_function" | "function" => some .function
    | "class_declaration" => some .cls
    | "method_definition" => some .method
    | _ => none
  | .go =>
    match kind with
    | "function_declaration" | "method_declaration" => some .function
    | "type_declaration" => some .struc
    | _ => none
  | .unknown => none

mutual

/-- Chunker::extract_chunks_recursive (chunker/mod.rs:145-183): if the node
kind maps to a chunk type and the node's source span is at least 50 bytes,
emit a chunk for the node; then recurse into the children in order. -/
def extractChunks (fp : String) (lang : Language) (content : List Nat) :
    TSNode → List CodeChunk
  | .mk kind sb eb sr er nameText children =>
    (match node_to_chunk_type kind lang with
     | some ct =>
       let cc := byteSlice content sb eb
       if 50 ≤ cc.length then
         [{ file_path := fp, language := lang, chunk_type := ct, name := nameText
            start_byte := sb, end_byte := eb, start_line := sr + 1, end_line := er + 1
            content := cc }]
       else []
     | none => []) ++ extractChunksList fp lang content children

/-- The `for child in node.children(&mut cursor)` loop of
`extract_chunks_recursive`. -/
def extractChunksList (fp : String) (lang : Language) (content : List Nat) :
    List TSNode → List CodeChunk
  | [] => []
  | t :: ts => extractChunks fp lang content t ++ extractChunksList fp lang content ts

end

/-- Default `max_chunk_size` (chunker/mod.rs:75). -/
def defaultMaxChunkSize : Nat := 2000

/-- Default sliding-window step: `max_chunk_size - overlap` where
`overlap = (2000 as f32 * 0.2) as usize = 400` (chunker/mod.rs:250-251). -/
def defaultStep : Nat := 1600

/-- Rust `str::is_char_boundary` on a byte string: offset 0 is a boundary;
an in-range offset is a boundary when the byte there is not a UTF-8
continuation byte (below 0x80 or at least 0xC0); the length is a boundary;
beyond-length offsets are not.  Rust `&str` range slicing panics on a
non-boundary offset; this is used both by the chunker's window slicing and
by the embedding-input truncation. -/
def isCharBoundary (bs : List Nat) (i : Nat) : Bool :=
  if i = 0 then true
  else if i < bs.length then decide (bs.getD i 0 < 128 ∨ 192 ≤ bs.getD i 0)
  else decide (i = bs.length)

/-- One iteration of Chunker::chunk_sliding_window's `while start < len` loop
(chunker/mod.rs:256-282): emit the chunk `[start, min(start + max, len))`,
advance `start` by `step`, and stop when the remainder is below `max / 4`.
`fuel` bounds the iteration count; callers pass `content.length + 1`, which is
enough whenever `step > 0`.  The truncated natural subtraction
`content.length - next` gives release-mode Rust behavior: when
`next > content.length` the `usize` subtraction wraps to a huge value, the
`< max / 4` test is false, and the loop then exits because `start < len`
fails; with truncation the test is true and the loop breaks — either way no
further chunk is emitted, so the emitted chunks agree.  (The debug-mode
overflow panic of that subtraction is modelled separately by
`swUnderflow`.)  This variant totalizes the three `&str` slices
`content[..start]`, `content[..end]` (chunker/mod.rs:260-261) and
`content[start..end]` (line 272) as byte slices, so it over-approximates the
emitted chunks: sound for per-chunk properties of whatever is emitted.  The
char-boundary panic of those slices — reachable in release builds — is
modelled by `swLoopChecked`. -/
def swLoop (fp : String) (lang : Language) (maxSize step : Nat) (content : List Nat) :
    Nat → Nat → Nat → List CodeChunk
  | 0, _, _ => []
  | fuel + 1, start, num =>
    if start < content.length then
      let e := min (start + maxSize) content.length
      let c : CodeChunk :=
        { file_path := fp, language := lang, chunk_type := .block
          name := some ("block_" ++ toString num)
          start_byte := start, end_byte := e
          start_line := countNL (content.take start) + 1
          end_line := countNL (content.take e) + 1
          content := byteSlice content start e }
      let next := start + step
      if content.length - next < maxSize / 4 then [c]
      else c :: swLoop fp lang maxSize step content fuel next (num + 1)
    else []

/-- Chunker::chunk_sliding_window (chunker/mod.rs:236-285). -/
def chunk_sliding_window (fp : String) (lang : Language) (maxSize step : Nat)
    (content : List Nat) : List CodeChunk :=
  if content.isEmpty then []
  else swLoop fp lang maxSize step content (content.length + 1) 0 0

/-- Whether some evaluation of the tiny-trailing-chunk check
`content.len() - start < max_chunk_size / 4` (chunker/mod.rs:279) happens
with `start > content.len()`, i.e. whether the `usize` subtraction
underflows (a panic in debug builds).  Mirrors `swLoop` step for step. -/
def swUnderflow (maxSize step len : Nat) : Nat → Nat → Bool
  | 0, _ => false
  | fuel + 1, start =>
    if start < len then
      let next := start + step
      if len < next then true
      else if len - next < maxSize / 4 then false
      else swUnderflow maxSize step len fuel next
    else false

/-- Underflow detector for a whole `chunk_sliding_window` run. -/
def slidingUnderflows (maxSize step : Nat) (content : List Nat) : Bool :=
  if content.isEmpty then false
  else swUnderflow maxSize step content.length (content.length + 1) 0

/-- Chunker failure type; the spec names the parser-crash case
`ChunkError::ParseFailed`. -/
inductive ChunkError where
  | parseFailed (msg : String)
deriving DecidableEq

/-- Chunker::chunk_file (chunker/mod.rs:90-107): unknown language goes
straight to the sliding window; for a known language, a tree-sitter failure
(`Err`) or an extraction yielding zero chunks falls back to the sliding
window (the `Ok(chunks) if !chunks.is_empty()` guard with a catch-all `_`
arm); otherwise the extracted chunks are returned. -/
def chunk_file (fp : String) (lang : Language) (maxSize step : Nat)
    (parse : Except ChunkError TSNode) (content : List Nat) :
    Except ChunkError (List CodeChunk) :=
  match lang with
  | .unknown => .ok (chunk_sliding_window fp lang maxSize step content)
  | _ =>
    match parse with
    | .ok tree =>
      let chunks := extractChunks fp lang content tree
      if chunks.isEmpty then .ok (chunk_sliding_window fp lang maxSize step content)
      else .ok chunks
    | .error _ => .ok (chunk_sliding_window fp lang maxSize step content)

/-- Panic-aware variant of `swLoop`.  Each iteration of the Rust loop slices
`content[..start]` (chunker/mod.rs:260), `content[..end]` (line 261) and
`content[start..end]` (line 272); `&str` range slicing panics — in release
builds too — when an offset is not a character boundary, so the iteration is
well-defined only when both `start` and `end` are boundaries.  `none` models
the panic; otherwise the same chunk as in `swLoop` is emitted. -/
def swLoopChecked (fp : String) (lang : Language) (maxSize step : Nat)
    (content : List Nat) : Nat → Nat → Nat → Option (List CodeChunk)
  | 0, _, _ => some []
  | fuel + 1, start, num =>
    if start < content.length then
      let e := min (start + maxSize) content.length
      if isCharBoundary content start && isCharBoundary content e then
        let c : CodeChunk :=
          { file_path := fp, language := lang, chunk_type := .block
            name := some ("block_" ++ toString num)
            start_byte := start, end_byte := e
            start_line := countNL (content.take start) + 1
            end_line := countNL (content.take e) + 1
            content := byteSlice content start e }
        let next := start + step
        if content.length - next < maxSize / 4 then some [c]
        else
          match swLoopChecked fp lang maxSize step content fuel next (num + 1) with
          | some cs => some (c :: cs)
          | none => none
      else none
    else some []

/-- Panic-aware Chunker::chunk_sliding_window (chunker/mod.rs:236-285). -/
def chunk_sliding_windowChecked (fp : String) (lang : Language)
    (maxSize step : Nat) (content : List Nat) : Option (List CodeChunk) :=
  if content.isEmpty then some []
  else swLoopChecked fp lang maxSize step content (content.length + 1) 0 0

/-- Panic-aware Chunker::chunk_file (chunker/mod.rs:90-107): as
`chunk_file`, but a char-boundary panic inside the sliding-window fallback
surfaces as `none`. -/
def chunk_fileChecked (fp : String) (lang : Language) (maxSize step : Nat)
    (parse : Except ChunkError TSNode) (content : List Nat) :
    Option (Except ChunkError (List CodeChunk)) :=
  match lang with
  | .unknown => (chunk_sliding_windowChecked fp lang maxSize step content).map .ok
  | _ =>
    match parse with
    | .ok tree =>
      let chunks := extractChunks fp lang content tree
      if chunks.isEmpty then
        (chunk_sliding_windowChecked fp lang maxSize step content).map .ok
      else some (.ok chunks)
    | .error _ => (chunk_sliding_windowChecked fp lang maxSize step content).map .ok

/-! ## Semantic indexer (src/semantic/mod.rs) -/

/-- UTF-8 continuation byte. -/
def utf8Cont (b : Nat) : Bool := decide (128 ≤ b ∧ b < 192)

/-- Allowed range of the first continuation byte after lead byte `b`
(RFC 3629: E0 narrows to A0-BF, ED to 80-9F, F0 to 90-BF, F4 to 80-8F;
every other lead takes a plain continuation byte). -/
def utf8First (b c1 : Nat) : Bool :=
  if b = 224 then 160 ≤ c1 && c1 ≤ 191
  else if b = 237 then 128 ≤ c1 && c1 ≤ 159
  else if b = 240 then 144 ≤ c1 && c1 ≤ 191
  else if b = 244 then 128 ≤ c1 && c1 ≤ 143
  else utf8Cont c1

/-- UTF-8 validity of a byte string (RFC 3629: ASCII below 0x80; leads
0xC2-0xDF, 0xE0-0xEF, 0xF0-0xF4 take one, two, three continuation bytes,
the first constrained by `utf8First`; 0x80-0xC1 and 0xF5-0xFF are invalid
leads); a Rust `String` always holds valid UTF-8. -/
def utf8Valid : List Nat → Bool
  | [] => true
  | b :: rest =>
    if b ≤ 127 then utf8Valid rest
    else if b < 194 then false
    else
      match rest with
      | [] => false
      | c1 :: r1 =>
        if b ≤ 223 then utf8Cont c1 && utf8Valid r1
        else
          match r1 with
          | [] => false
          | c2 :: r2 =>
            if b ≤ 239 then utf8First b c1 && utf8Cont c2 && utf8Valid r2
            else
              match r2 with
              | [] => false
              | c3 :: r3 =>
                if b ≤ 244 then
                  utf8First b c1 && utf8Cont c2 && utf8Cont c3 && utf8Valid r3
                else false

/-- Byte truncation of a chunk's content in SemanticIndexer::index_files
(semantic/mod.rs:136): the slice `&chunk.content[..chunk.content.len().min(500)]`.
Rust string slicing panics when the end offset is not a character boundary;
the panic is modelled as `none`.  The surrounding
`format!("[<lang>] <type>: <slice>")` only prepends ASCII text and cannot
affect definedness. -/
def embedSlice (content : List Nat) : Option (List Nat) :=
  let e := min content.length 500
  if isCharBoundary content e then some (content.take e) else none

/-! ## HybridRanker (src/ranker/mod.rs)

Scores are exact rationals standing for the `f32` computations; every score
produced by RRF is a sum of terms `w / (k + rank + 1)`. -/

inductive SearchSource where
  | lexical
  | semantic
  | hybrid
deriving DecidableEq

structure RankedResult where
  file_path : String
  score : ℚ
  source : SearchSource
  start_line : Nat
  end_line : Nat
  content_preview : String
  name : Option String
deriving DecidableEq

/-- The `HashMap<String, (f32, Option<RankedResult>)>` accumulator of
`rrf_fusion`, as an association list in key-insertion order.  Iteration
order of the real `HashMap` is unspecified, so consumers take an arbitrary
permutation of these entries. -/
abbrev ScoreMap := List (String × ℚ × Option RankedResult)

/-- One `scores.entry(key).and_modify(...).or_insert(...)` step
(ranker/mod.rs:93-101 and 109-117): add the weighted RRF contribution to an
existing entry (filling in the record if absent), or insert a fresh entry. -/
def mapUpdate (m : ScoreMap) (key : String) (contribution : ℚ)
    (result : RankedResult) : ScoreMap :=
  if m.any (fun e => e.1 == key) then
    m.map fun e =>
      if e.1 == key then
        (e.1, e.2.1 + contribution, if e.2.2.isNone then some result else e.2.2)
      else e
  else m ++ [(key, contribution, some result)]

/-- One `for (rank, result) in list.into_iter().enumerate()` pass of
`rrf_fusion` (ranker/mod.rs:89-102, 105-118) with list weight `w`
(`alpha` for the lexical list, `1 - alpha` for the semantic list):
each rank-`rank` result contributes `(1 / (k + rank + 1)) * w` to its
`file_path` key. -/
def processRRF (w k : ℚ) : ScoreMap → Nat → List RankedResult → ScoreMap
  | m, _, [] => m
  | m, rank, r :: rs =>
    processRRF w k (mapUpdate m r.file_path ((1 / (k + (rank : ℚ) + 1)) * w) r) (rank + 1) rs

/-- The accumulator state after both passes of `rrf_fusion`: lexical list
first with weight `alpha`, then semantic list with weight `1 - alpha`. -/
def buildScores (alpha k : ℚ) (lex sem : List RankedResult) : ScoreMap :=
  processRRF (1 - alpha) k (processRRF alpha k [] 0 lex) 0 sem

/-- Stable descending insertion: the new element goes after existing
elements of equal score. -/
def insertDesc (r : RankedResult) : List RankedResult → List RankedResult
  | [] => [r]
  | x :: xs => if x.score < r.score then r :: x :: xs else x :: insertDesc r xs

/-- The stable descending sort
`results.sort_by(|a, b| b.score.partial_cmp(&a.score).unwrap())`
(ranker/mod.rs:132): Rust's `sort_by` is stable, so equal scores keep the
order of the list being sorted. -/
def sortDesc (l : List RankedResult) : List RankedResult :=
  l.foldl (fun acc r => insertDesc r acc) []

/-- The tail of `rrf_fusion` (ranker/mod.rs:121-134): drain the map
(`drained` is its entries in the hash map's iteration order), overwrite each
retained record's score with the fused score and its source with `Hybrid`,
sort by score descending (stable), and truncate to `limit`. -/
def finalizeRRF (drained : ScoreMap) (limit : Nat) : List RankedResult :=
  (sortDesc (drained.filterMap fun e =>
    e.2.2.map fun r => { r with score := e.2.1, source := .hybrid })).take limit

/-- HybridRanker::rrf_fusion (ranker/mod.rs:79-135) under one admissible
hash-iteration order (key-insertion order).  Theorems about the fusion
quantify over an arbitrary permutation of `buildScores` instead. -/
def rrf_fusion (alpha k : ℚ) (lex sem : List RankedResult) (limit : Nat) :
    List RankedResult :=
  finalizeRRF (buildScores alpha k lex sem) limit

/-- The minimum score of a nonempty result list `r0 :: rs`, as computed by
the fold `results.iter().map(score).fold(INFINITY, min)` (ranker/mod.rs:206-209):
for a nonempty list, folding from `+∞` equals folding from the first score. -/
def minScore (r0 : RankedResult) (rs : List RankedResult) : ℚ :=
  (rs.map (·.score)).foldl min r0.score

/-- Maximum score of a nonempty result list, the `fold(NEG_INFINITY, max)`
of ranker/mod.rs:210-213. -/
def maxScore (r0 : RankedResult) (rs : List RankedResult) : ℚ :=
  (rs.map (·.score)).foldl max r0.score

/-- HybridRanker::normalize_scores (ranker/mod.rs:200-234): empty in, empty
out; if the score range `max - min` is `≤ 0`, every score becomes `1.0`;
otherwise each score becomes `(s - min) / range`. -/
def normalize_scores : List RankedResult → List RankedResult
  | [] => []
  | r0 :: rs =>
    if maxScore r0 rs - minScore r0 rs ≤ 0 then
      (r0 :: rs).map fun r => { r with score := 1 }
    else
      (r0 :: rs).map fun r =>
        { r with score := (r.score - minScore r0 rs) / (maxScore r0 rs - minScore r0 rs) }

/-! ## FileCache (src/cache/mod.rs) -/

inductive FileStatus where
  | new
  | modified
  | unchanged
deriving DecidableEq

/-- FileCache::check_file (cache/mod.rs:52-75).  `files` is the cached
path-to-mtime map (an association list standing for the `HashMap`);
`current_mtime` is the file's mtime in whole seconds since the Unix epoch,
`none` when it cannot be read. -/
def check_file (files : List (String × Nat)) (path : String)
    (current_mtime : Option Nat) : FileStatus :=
  match current_mtime with
  | none => .new
  | some t =>
    match files.lookup path with
    | none => .new
    | some cached => if cached < t then .modified else .unchanged

/-! ## Persisted artifact names (src/vector_store/mod.rs, src/main.rs) -/

/-- File name of the ANN artifact (vector_store/mod.rs:39). -/
def vectorsFileName : String := "vectors.usearch"

/-- File name of the metadata sidecar (vector_store/mod.rs:40). -/
def metadataFileName : String := "metadata.json"

/-- What VectorStore::save writes (vector_store/mod.rs:130-139): the ANN
artifact to `index_path`, and the metadata serialized with
`serde_json::to_string_pretty` to `metadata_path`; both paths were fixed by
VectorStore::new (vector_store/mod.rs:38-40) as children of the base
directory.  Paths are lists of components. -/
structure SavePlan where
  indexFile : List String
  metadataFile : List String
  metadataPretty : Bool
deriving DecidableEq

/-- The save targets of a store opened at `basePath`. -/
def savePlan (basePath : List String) : SavePlan :=
  { indexFile := basePath ++ [vectorsFileName]
    metadataFile := basePath ++ [metadataFileName]
    metadataPretty := true }

/-- The store's default base directory: main.rs:92-94 passes
`<home>/.seekr` to SemanticIndexer::new, which appends `semantic`
(semantic/mod.rs:49). -/
def semanticDir (home : List String) : List String := home ++ [".seekr", "semantic"]

/-! ## Theorems -/

theorem VectorStoreState.addAll_eq (s : VectorStoreState α)
    (calls : List (α × ChunkMetadata)) :
    (s.addAll calls).1 = List.range' s.metadata.length calls.length ∧
    (s.addAll calls).2.metadata = s.metadata ++ calls.map (·.2) := by
  induction calls generalizing s with
  | nil => simp [addAll]
  | cons c rest ih =>
    obtain ⟨v, m⟩ := c
    have h := ih (s.add v m).2
    have hm : (s.add v m).2.metadata = s.metadata ++ [m] := rfl
    simp only [addAll]
    constructor
    · rw [h.1, hm, List.length_append, List.length_cons, List.length_nil,
        List.length_cons, List.range'_succ]
      rfl
    · rw [h.2, hm]
      simp

/-- C1: VectorStore key/metadata parity: starting from a store with an empty
metadata vector, after N successful `add` calls the metadata vector has
length N, the i-th `add` returns key i-1 (its 0-based insertion position),
and the metadata at index k is the metadata passed to the call that returned
key k. -/
theorem vectorStore_key_metadata_parity {α : Type} (s₀ : VectorStoreState α)
    (calls : List (α × ChunkMetadata)) (h : s₀.metadata = []) :
    (s₀.addAll calls).2.metadata.length = calls.length ∧
    (s₀.addAll calls).1 = List.range calls.length ∧
    ∀ k, (s₀.addAll calls).2.metadata.get? k = (calls.get? k).map (·.2) := by
  have h2 := VectorStoreState.addAll_eq s₀ calls
  rw [h] at h2
  refine ⟨?_, ?_, ?_⟩
  · rw [h2.2]; simp
  · rw [h2.1]; simp [List.range_eq_range']
  · intro k; rw [h2.2]; simp [List.get?_eq_getElem?, List.getElem?_map]

theorem vectorStore_key_metadata_parity_witness :
    (VectorStoreState.addAll (⟨[], 0, []⟩ : VectorStoreState Nat)
        [(3, ⟨"a.rs", "function", none, 1, 2, "rust", "p"⟩),
         (5, ⟨"b.rs", "struct", none, 3, 4, "rust", "q"⟩)]).2.metadata.length = 2 ∧
    (VectorStoreState.addAll (⟨[], 0, []⟩ : VectorStoreState Nat)
        [(3, ⟨"a.rs", "function", none, 1, 2, "rust", "p"⟩),
         (5, ⟨"b.rs", "struct", none, 3, 4, "rust", "q"⟩)]).1 = List.range 2 ∧
    (VectorStoreState.addAll (⟨[], 0, []⟩ : VectorStoreState Nat)
        [(3, ⟨"a.rs", "function", none, 1, 2, "rust", "p"⟩),
         (5, ⟨"b.rs", "struct", none, 3, 4, "rust", "q"⟩)]).2.metadata.get? 1 =
      (([(((3 : Nat)), (⟨"a.rs", "function", none, 1, 2, "rust", "p"⟩ : ChunkMetadata)),
         (5, ⟨"b.rs", "struct", none, 3, 4, "rust", "q"⟩)]).get? 1).map (·.2) :=
  ⟨(vectorStore_key_metadata_parity _ _ rfl).1,
   (vectorStore_key_metadata_parity _ _ rfl).2.1,
   (vectorStore_key_metadata_parity _ _ rfl).2.2 1⟩

/-- C6: FileCache::check_file classification: unreadable mtime gives New;
a path absent from the cache map gives New; a current mtime strictly greater
than the stored one gives Modified; otherwise Unchanged. -/
theorem check_file_classification (files : List (String × Nat)) (path : String)
    (current : Option Nat) :
    (current = none → check_file files path current = .new) ∧
    (∀ t, current = some t → files.lookup path = none →
      check_file files path current = .new) ∧
    (∀ t c, current = some t → files.lookup path = some c → c < t →
      check_file files path current = .modified) ∧
    (∀ t c, current = some t → files.lookup path = some c → t ≤ c →
      check_file files path current = .unchanged) := by
  refine ⟨?_, ?_, ?_, ?_⟩
  · intro h; subst h; rfl
  · intro t h hl; subst h; simp [check_file, hl]
  · intro t c h hl hlt; subst h; simp [check_file, hl, hlt]
  · intro t c h hl hge; subst h; simp [check_file, hl]
    omega

theorem check_file_classification_witness :
    check_file [("a", 5)] "a" (some 7) = .modified :=
  (check_file_classification [("a", 5)] "a" (some 7)).2.2.1 7 5 rfl rfl (by norm_num)

/-- C8 counterexample: the ANN artifact written by VectorStore::save is
named `vectors.usearch`, not `vectors.idx` as claimed. -/
theorem savePlan_not_vectors_idx :
    (savePlan (semanticDir ["home"])).indexFile
      = ["home", ".seekr", "semantic", "vectors.usearch"] ∧
    vectorsFileName ≠ "vectors.idx" := by decide

/-- C8 (amended): save() writes the ANN artifact to `vectors.usearch` inside
the store's base directory (default layout `<home>/.seekr/semantic/`) and
writes the metadata as pretty-printed JSON to `metadata.json` in the same
directory. -/
theorem savePlan_default_layout (home : List String) :
    savePlan (semanticDir home) =
      { indexFile := home ++ [".seekr", "semantic", "vectors.usearch"]
        metadataFile := home ++ [".seekr", "semantic", "metadata.json"]
        metadataPretty := true } := by
  simp [savePlan, semanticDir, vectorsFileName, metadataFileName]

/-- C10: on a 100-byte input (non-empty, shorter than the default step of
1600) the sliding-window loop runs its first iteration, advances `start` to
1600, and then evaluates `content.len() - start` with
`start > content.len()`: the `usize` subtraction underflows, which panics in
debug builds.  The second conjunct shows the loop does reach that check
(release behavior emits exactly one chunk). -/
theorem sliding_window_underflow_bug :
    slidingUnderflows defaultMaxChunkSize defaultStep (List.replicate 100 97) = true ∧
    (chunk_sliding_window "f.txt" .unknown defaultMaxChunkSize defaultStep
        (List.replicate 100 97)).length = 1 := by decide

set_option maxRecDepth 4000 in
/-- C9: byte offset 500 need not be a UTF-8 character boundary in a chunk's
content.  For a well-formed 501-byte source (499 ASCII bytes then the
two-byte character U+00E9) whose parse yields zero extractable chunks, the
fallback produces one chunk whose content is the whole file, and the
embedding-input slice `&content[..content.len().min(500)]` hits offset 500
inside the two-byte character: the slice panics (modelled as `none`). -/
theorem embed_truncation_ill_defined :
    utf8Valid (List.replicate 499 97 ++ [195, 169]) = true ∧
    ((chunk_file "weird.rs" .rust defaultMaxChunkSize defaultStep
        (.ok (.mk "source_file" 0 501 0 0 none []))
        (List.replicate 499 97 ++ [195, 169])).toOption.map
      fun cs => cs.map fun ch => embedSlice ch.content) = some [none] := by decide

theorem mem_extractChunksList {fp : String} {lang : Language} {content : List Nat}
    {ts : List TSNode} {c : CodeChunk} :
    c ∈ extractChunksList fp lang content ts ↔
      ∃ t ∈ ts, c ∈ extractChunks fp lang content t := by
  induction ts with
  | nil => simp [extractChunksList]
  | cons t ts ih => simp [extractChunksList, List.mem_append, ih]

theorem extract_roundtrip {content : List Nat} {t : TSNode}
    (hwf : TSNode.WF content t) (fp : String) (lang : Language) :
    ∀ c ∈ extractChunks fp lang content t,
      c.content = byteSlice content c.start_byte c.end_byte ∧
      c.start_line = countNL (content.take c.start_byte) + 1 := by
  induction hwf with
  | mk hrow hch ih =>
    rename_i kind sb eb sr er nameText children
    subst hrow
    intro c hc
    rw [extractChunks] at hc
    rcases List.mem_append.1 hc with h1 | h2
    · rcases hct : node_to_chunk_type kind lang with _ | ct
      · simp only [hct] at h1
        simp at h1
      · simp only [hct] at h1
        by_cases hlen : 50 ≤ (byteSlice content sb eb).length
        · rw [if_pos hlen] at h1
          simp only [List.mem_singleton] at h1
          subst h1
          exact ⟨rfl, rfl⟩
        · rw [if_neg hlen] at h1
          simp at h1
    · obtain ⟨t2, ht2, hc2⟩ := mem_extractChunksList.1 h2
      exact ih t2 ht2 c hc2

theorem swLoop_roundtrip (fp : String) (lang : Language) (maxSize step : Nat)
    (content : List Nat) :
    ∀ fuel start num, ∀ c ∈ swLoop fp lang maxSize step content fuel start num,
      c.content = byteSlice content c.start_byte c.end_byte ∧
      c.start_line = countNL (content.take c.start_byte) + 1 := by
  intro fuel
  induction fuel with
  | zero => intro start num c hc; simp [swLoop] at hc
  | succ fuel ih =>
    intro start num c hc
    rw [swLoop] at hc
    by_cases h : start < content.length
    · rw [if_pos h] at hc
      by_cases h2 : content.length - (start + step) < maxSize / 4
      · rw [if_pos h2] at hc
        simp only [List.mem_singleton] at hc
        subst hc
        exact ⟨rfl, rfl⟩
      · rw [if_neg h2] at hc
        rcases List.mem_cons.1 hc with h3 | h3
        · subst h3; exact ⟨rfl, rfl⟩
        · exact ih _ _ c h3
    · rw [if_neg h] at hc
      simp at hc

theorem sliding_roundtrip (fp : String) (lang : Language) (maxSize step : Nat)
    (content : List Nat) :
    ∀ c ∈ chunk_sliding_window fp lang maxSize step content,
      c.content = byteSlice content c.start_byte c.end_byte ∧
      c.start_line = countNL (content.take c.start_byte) + 1 := by
  intro c hc
  unfold chunk_sliding_window at hc
  split at hc
  · simp at hc
  · exact swLoop_roundtrip fp lang maxSize step content _ _ _ c hc

/-- C2: Chunker round-trip: every chunk emitted by chunk_file — by AST
extraction (given tree-sitter's coordinate invariant) or by the
sliding-window fallback — has `content` equal to the source bytes
`[start_byte, end_byte)` and `start_line` equal to one plus the number of
newline bytes strictly before `start_byte`. -/
theorem chunker_roundtrip (fp : String) (lang : Language) (maxSize step : Nat)
    (parse : Except ChunkError TSNode) (content : List Nat) (cs : List CodeChunk)
    (hok : chunk_file fp lang maxSize step parse content = .ok cs)
    (hwf : ∀ t, parse = .ok t → TSNode.WF content t) :
    ∀ c ∈ cs, c.content = byteSlice content c.start_byte c.end_byte ∧
      c.start_line = countNL (content.take c.start_byte) + 1 := by
  have hsw := sliding_roundtrip fp lang maxSize step content
  cases lang
  case unknown =>
    simp only [chunk_file, Except.ok.injEq] at hok
    subst hok; exact hsw
  all_goals
    cases parse with
    | error e =>
      simp only [chunk_file, Except.ok.injEq] at hok
      subst hok; exact hsw
    | ok tree =>
      simp only [chunk_file] at hok
      split at hok <;> rw [Except.ok.injEq] at hok <;> subst hok
      · exact hsw
      · exact extract_roundtrip (hwf tree rfl) fp _

theorem chunker_roundtrip_witness :
    (⟨"w", .unknown, .block, some "block_0", 0, 3, 1, 2, [97, 10, 98]⟩ : CodeChunk).content
        = byteSlice [97, 10, 98] 0 3 ∧
    (⟨"w", .unknown, .block, some "block_0", 0, 3, 1, 2, [97, 10, 98]⟩ : CodeChunk).start_line
        = countNL (([97, 10, 98] : List Nat).take 0) + 1 :=
  chunker_roundtrip "w" .unknown defaultMaxChunkSize defaultStep
    (.error (.parseFailed "x")) [97, 10, 98] _ rfl (fun _ h => nomatch h)
    _ (by decide)

theorem utf8Valid_replicate_ascii (n : Nat) (rest : List Nat) :
    utf8Valid (List.replicate n 97 ++ rest) = utf8Valid rest := by
  induction n with
  | zero => rw [List.replicate_zero, List.nil_append]
  | succ n ih =>
    rw [List.replicate_succ, List.cons_append, utf8Valid.eq_def]
    simp
    exact ih

theorem swLoopChecked_none_of_boundary (fp : String) (lang : Language)
    (maxSize step : Nat) (content : List Nat) (fuel start num : Nat)
    (h1 : start < content.length)
    (h2 : (isCharBoundary content start &&
      isCharBoundary content (min (start + maxSize) content.length)) = false) :
    swLoopChecked fp lang maxSize step content (fuel + 1) start num = none := by
  simp only [swLoopChecked]
  rw [if_pos h1, h2]
  rfl

/-- C5: the claim fails on the code: the sliding-window fallback does not
ensure a non-empty result (or success at all) for every non-empty input,
because its byte-offset windows need not fall on UTF-8 character
boundaries.  For a 2001-byte Python file (1999 ASCII bytes, then the
two-byte character U+00E9) whose parse yields zero extractable chunks, the
fallback fires under the default configuration and its first window is
`[0, 2000)`; byte 2000 lies inside the two-byte character, so the slices
`content[..2000]` and `content[0..2000]` (chunker/mod.rs:261,272) panic —
in release builds too.  The input is valid UTF-8 and non-empty, yet
`chunk_file` panics (`none` in the panic-aware model) instead of returning
a non-empty chunk sequence. -/
theorem chunk_file_fallback_slice_bug :
    utf8Valid (List.replicate 1999 97 ++ [195, 169]) = true ∧
    (List.replicate 1999 97 ++ [195, 169] : List Nat) ≠ [] ∧
    (chunk_fileChecked "c.py" .python defaultMaxChunkSize defaultStep
      (.ok (.mk "module" 0 2001 0 0 none []))
      (List.replicate 1999 97 ++ [195, 169])).isNone = true := by
  have hlen : (List.replicate 1999 (97 : Nat) ++ [195, 169]).length = 2001 := by
    rw [List.length_append, List.length_replicate]
    rfl
  have hb2000 : isCharBoundary (List.replicate 1999 (97 : Nat) ++ [195, 169]) 2000
      = false := by
    unfold isCharBoundary
    rw [if_neg (by norm_num), if_pos (by rw [hlen]; norm_num)]
    have hg : (List.replicate 1999 (97 : Nat) ++ [195, 169]).getD 2000 0 = 169 := by
      rw [List.getD_eq_getElem?_getD,
        List.getElem?_append_right (by rw [List.length_replicate]; norm_num),
        List.length_replicate]
      rfl
    rw [hg]
    rfl
  refine ⟨?_, by decide, ?_⟩
  · rw [utf8Valid_replicate_ascii]
    decide
  · have hsw : swLoopChecked "c.py" .python defaultMaxChunkSize defaultStep
        (List.replicate 1999 (97 : Nat) ++ [195, 169])
        ((List.replicate 1999 (97 : Nat) ++ [195, 169]).length + 1) 0 0 = none :=
      swLoopChecked_none_of_boundary _ _ _ _ _ _ _ _
        (by rw [hlen]; norm_num)
        (by
          have hm : min (0 + defaultMaxChunkSize)
              (List.replicate 1999 (97 : Nat) ++ [195, 169]).length = 2000 := by
            rw [hlen]
            decide
          rw [hm, hb2000, Bool.and_false])
    have hred : chunk_fileChecked "c.py" .python defaultMaxChunkSize defaultStep
        (.ok (.mk "module" 0 2001 0 0 none []))
        (List.replicate 1999 (97 : Nat) ++ [195, 169])
        = (chunk_sliding_windowChecked "c.py" .python defaultMaxChunkSize
            defaultStep (List.replicate 1999 (97 : Nat) ++ [195, 169])).map .ok :=
      rfl
    have hred2 : chunk_sliding_windowChecked "c.py" .python defaultMaxChunkSize
        defaultStep (List.replicate 1999 (97 : Nat) ++ [195, 169]) = none := by
      unfold chunk_sliding_windowChecked
      rw [if_neg (by decide)]
      exact hsw
    rw [hred, hred2]
    rfl

theorem foldl_min_comm_map (f : ℚ → ℚ) (hf : ∀ x y, f (min x y) = min (f x) (f y)) :
    ∀ (l : List ℚ) (a : ℚ), (l.map f).foldl min (f a) = f (l.foldl min a) := by
  intro l
  induction l with
  | nil => intro a; rfl
  | cons x xs ih =>
    intro a
    simp only [List.map_cons, List.foldl_cons, ← hf]
    exact ih _

theorem foldl_max_comm_map (f : ℚ → ℚ) (hf : ∀ x y, f (max x y) = max (f x) (f y)) :
    ∀ (l : List ℚ) (a : ℚ), (l.map f).foldl max (f a) = f (l.foldl max a) := by
  intro l
  induction l with
  | nil => intro a; rfl
  | cons x xs ih =>
    intro a
    simp only [List.map_cons, List.foldl_cons, ← hf]
    exact ih _

theorem foldl_min_all_eq : ∀ (l : List ℚ) (a : ℚ), (∀ x ∈ l, x = a) → l.foldl min a = a := by
  intro l
  induction l with
  | nil => intro a _; rfl
  | cons x xs ih =>
    intro a h
    rw [List.foldl_cons, h x (List.mem_cons_self x xs), min_self]
    exact ih a fun y hy => h y (List.mem_cons_of_mem _ hy)

theorem foldl_max_all_eq : ∀ (l : List ℚ) (a : ℚ), (∀ x ∈ l, x = a) → l.foldl max a = a := by
  intro l
  induction l with
  | nil => intro a _; rfl
  | cons x xs ih =>
    intro a h
    rw [List.foldl_cons, h x (List.mem_cons_self x xs), max_self]
    exact ih a fun y hy => h y (List.mem_cons_of_mem _ hy)

theorem minScore_map (f : ℚ → ℚ) (hf : ∀ x y : ℚ, f (min x y) = min (f x) (f y))
    (r0 : RankedResult) (rs : List RankedResult) :
    minScore { r0 with score := f r0.score }
      (rs.map fun r => { r with score := f r.score }) = f (minScore r0 rs) := by
  unfold minScore
  rw [List.map_map]
  have h := foldl_min_comm_map f hf (rs.map (·.score)) r0.score
  rw [List.map_map] at h
  exact h

theorem maxScore_map (f : ℚ → ℚ) (hf : ∀ x y : ℚ, f (max x y) = max (f x) (f y))
    (r0 : RankedResult) (rs : List RankedResult) :
    maxScore { r0 with score := f r0.score }
      (rs.map fun r => { r with score := f r.score }) = f (maxScore r0 rs) := by
  unfold maxScore
  rw [List.map_map]
  have h := foldl_max_comm_map f hf (rs.map (·.score)) r0.score
  rw [List.map_map] at h
  exact h

/-- C7: min-max normalization is idempotent: a second `normalize_scores` is
a no-op (exactly, in the rational model of the f32 arithmetic); when all
scores are equal (range ≤ 0) every score becomes exactly 1.0; the empty
list is returned unchanged. -/
theorem normalize_scores_idem (l : List RankedResult) :
    normalize_scores (normalize_scores l) = normalize_scores l ∧
    ((∀ r1 ∈ l, ∀ r2 ∈ l, r1.score = r2.score) →
      ∀ r ∈ normalize_scores l, r.score = 1) ∧
    normalize_scores ([] : List RankedResult) = [] := by
  refine ⟨?_, ?_, rfl⟩
  · cases l with
    | nil => rfl
    | cons r0 rs =>
      by_cases hr : maxScore r0 rs - minScore r0 rs ≤ 0
      · have h1 : normalize_scores (r0 :: rs) =
            (r0 :: rs).map fun r => { r with score := 1 } := by
          rw [normalize_scores, if_pos hr]
        rw [h1]
        have hmn : minScore ({ r0 with score := 1 })
            (rs.map fun r => { r with score := 1 }) = 1 := by
          unfold minScore
          rw [List.map_map]
          exact foldl_min_all_eq _ _ (by
            intro x hx
            obtain ⟨r', _, hx'⟩ := List.mem_map.1 hx
            exact hx'.symm)
        have hmx : maxScore ({ r0 with score := 1 })
            (rs.map fun r => { r with score := 1 }) = 1 := by
          unfold maxScore
          rw [List.map_map]
          exact foldl_max_all_eq _ _ (by
            intro x hx
            obtain ⟨r', _, hx'⟩ := List.mem_map.1 hx
            exact hx'.symm)
        calc normalize_scores ((r0 :: rs).map fun r => { r with score := 1 })
            = ((r0 :: rs).map (fun r => { r with score := 1 })).map
                (fun r => { r with score := 1 }) := by
              rw [List.map_cons, normalize_scores, hmn, hmx, if_pos (by norm_num)]
          _ = (r0 :: rs).map fun r => { r with score := 1 } := by
              rw [List.map_map]
              exact List.map_congr_left fun a _ => rfl
      · have hrange : 0 < maxScore r0 rs - minScore r0 rs := lt_of_not_le hr
        set f := fun x : ℚ =>
          (x - minScore r0 rs) / (maxScore r0 rs - minScore r0 rs) with hf_def
        have hmono : Monotone f := fun x y hxy =>
          (div_le_div_iff_of_pos_right hrange).2 (sub_le_sub_right hxy _)
        have h1 : normalize_scores (r0 :: rs) =
            (r0 :: rs).map fun r => { r with score := f r.score } := by
          rw [normalize_scores, if_neg hr]
        rw [h1]
        have hmn2 : minScore { r0 with score := f r0.score }
            (rs.map fun r => { r with score := f r.score }) = 0 := by
          rw [minScore_map f (fun x y => hmono.map_min)]
          rw [hf_def]
          simp
        have hmx2 : maxScore { r0 with score := f r0.score }
            (rs.map fun r => { r with score := f r.score }) = 1 := by
          rw [maxScore_map f (fun x y => hmono.map_max)]
          rw [hf_def]
          exact div_self hrange.ne'
        calc normalize_scores ((r0 :: rs).map fun r => { r with score := f r.score })
            = ((r0 :: rs).map (fun r => { r with score := f r.score })).map
                (fun r => { r with score := (r.score - 0) / (1 - 0) }) := by
              rw [List.map_cons, normalize_scores, hmn2, hmx2, if_neg (by norm_num)]
          _ = (r0 :: rs).map fun r => { r with score := f r.score } := by
              rw [List.map_map]
              refine List.map_congr_left ?_
              intro a _
              simp only [Function.comp_apply, sub_zero, div_one]
  · intro hall r hmem
    cases l with
    | nil => simp [normalize_scores] at hmem
    | cons r0 rs =>
      have hmn : minScore r0 rs = r0.score :=
        foldl_min_all_eq _ _ (by
          intro x hx
          obtain ⟨r', hr', hx'⟩ := List.mem_map.1 hx
          rw [← hx']
          exact hall r' (List.mem_cons_of_mem _ hr') r0 (List.mem_cons_self _ _))
      have hmx : maxScore r0 rs = r0.score :=
        foldl_max_all_eq _ _ (by
          intro x hx
          obtain ⟨r', hr', hx'⟩ := List.mem_map.1 hx
          rw [← hx']
          exact hall r' (List.mem_cons_of_mem _ hr') r0 (List.mem_cons_self _ _))
      rw [normalize_scores, if_pos (by rw [hmn, hmx]; simp)] at hmem
      obtain ⟨r', _, hr'⟩ := List.mem_map.1 hmem
      rw [← hr']

theorem normalize_scores_idem_witness :
    normalize_scores (normalize_scores
        [(⟨"a", 3, .lexical, 1, 2, "p", none⟩ : RankedResult)]) =
      normalize_scores [(⟨"a", 3, .lexical, 1, 2, "p", none⟩ : RankedResult)] ∧
    (⟨"a", 1, .lexical, 1, 2, "p", none⟩ : RankedResult).score = 1 :=
  ⟨(normalize_scores_idem [⟨"a", 3, .lexical, 1, 2, "p", none⟩]).1,
   (normalize_scores_idem [⟨"a", 3, .lexical, 1, 2, "p", none⟩]).2.1
     (by simp) _ (by norm_num [normalize_scores, minScore, maxScore])⟩

theorem mem_insertDesc {x r : RankedResult} {l : List RankedResult} :
    x ∈ insertDesc r l ↔ x = r ∨ x ∈ l := by
  induction l with
  | nil => simp [insertDesc]
  | cons y ys ih =>
    rw [insertDesc]
    split
    · simp [List.mem_cons]
    · rw [List.mem_cons, ih, List.mem_cons]
      tauto

theorem mem_sortDesc_aux : ∀ (l acc : List RankedResult) (x : RankedResult),
    x ∈ l.foldl (fun acc r => insertDesc r acc) acc ↔ x ∈ acc ∨ x ∈ l := by
  intro l
  induction l with
  | nil => simp
  | cons r rs ih =>
    intro acc x
    rw [List.foldl_cons, ih, mem_insertDesc, List.mem_cons]
    tauto

theorem mem_sortDesc {x : RankedResult} {l : List RankedResult} :
    x ∈ sortDesc l ↔ x ∈ l := by
  rw [sortDesc, mem_sortDesc_aux]
  simp

theorem insertDesc_sorted {r : RankedResult} {l : List RankedResult}
    (h : l.Pairwise fun a b => b.score ≤ a.score) :
    (insertDesc r l).Pairwise fun a b => b.score ≤ a.score := by
  induction l with
  | nil => simp [insertDesc]
  | cons x xs ih =>
    rw [insertDesc]
    split
    · next hlt =>
      refine List.Pairwise.cons ?_ h
      intro y hy
      rcases List.mem_cons.1 hy with h1 | h1
      · subst h1; exact hlt.le
      · exact le_trans (List.rel_of_pairwise_cons h h1) hlt.le
    · next hge =>
      have hxr : r.score ≤ x.score := not_lt.1 hge
      refine List.Pairwise.cons ?_ (ih h.of_cons)
      intro y hy
      rcases mem_insertDesc.1 hy with h1 | h1
      · subst h1; exact hxr
      · exact List.rel_of_pairwise_cons h h1

theorem sortDesc_sorted_aux : ∀ (l acc : List RankedResult),
    acc.Pairwise (fun a b => b.score ≤ a.score) →
    (l.foldl (fun acc r => insertDesc r acc) acc).Pairwise
      (fun a b => b.score ≤ a.score) := by
  intro l
  induction l with
  | nil => intro acc h; exact h
  | cons r rs ih => intro acc h; exact ih _ (insertDesc_sorted h)

theorem sortDesc_sorted (l : List RankedResult) :
    (sortDesc l).Pairwise fun a b => b.score ≤ a.score :=
  sortDesc_sorted_aux l [] List.Pairwise.nil

theorem contribution_pos {k : ℚ} (hk : 0 ≤ k) {w : ℚ} (hw : 0 < w) (rank : Nat) :
    0 < (1 / (k + (rank : ℚ) + 1)) * w := by
  have h1 : (0 : ℚ) ≤ (rank : ℚ) := Nat.cast_nonneg rank
  have hpos : (0 : ℚ) < k + (rank : ℚ) + 1 := by linarith
  exact mul_pos (one_div_pos.2 hpos) hw

theorem contribution_le {k : ℚ} (hk : 0 ≤ k) {w : ℚ} (hw : 0 < w) (rank : Nat) :
    (1 / (k + (rank : ℚ) + 1)) * w ≤ (1 / (k + 1)) * w := by
  have h1 : (0 : ℚ) ≤ (rank : ℚ) := Nat.cast_nonneg rank
  have hpos : (0 : ℚ) < k + 1 := by linarith
  exact mul_le_mul_of_nonneg_right
    (one_div_le_one_div_of_le hpos (by linarith)) hw.le

/-- Invariant propagation through one enumerate-and-upsert pass of
`rrf_fusion`: if no file_path repeats within the list being processed, every
map entry starts positive, below `B`, below a budget `C` when its key still
occurs in the list, and holds a record, then afterwards every entry is
positive, below `B`, and holds a record (where `C + (1/(k+1))·w ≤ B`). -/
theorem processRRF_bounds (w k C B : ℚ) (hw : 0 < w) (hk : 0 ≤ k) (hC : 0 ≤ C)
    (hCB : C + (1 / (k + 1)) * w ≤ B) :
    ∀ (l : List RankedResult) (m : ScoreMap) (rank : Nat),
      (l.map (·.file_path)).Nodup →
      (∀ e ∈ m, 0 < e.2.1 ∧ e.2.1 ≤ B ∧
        (e.1 ∈ l.map (·.file_path) → e.2.1 ≤ C) ∧ e.2.2.isSome) →
      ∀ e ∈ processRRF w k m rank l,
        0 < e.2.1 ∧ e.2.1 ≤ B ∧ e.2.2.isSome := by
  intro l
  induction l with
  | nil =>
    intro m rank _ hm e he
    rw [processRRF] at he
    exact ⟨(hm e he).1, (hm e he).2.1, (hm e he).2.2.2⟩
  | cons r rs ih =>
    intro m rank hnd hm
    rw [List.map_cons, List.nodup_cons] at hnd
    obtain ⟨hnotin, hnd2⟩ := hnd
    rw [processRRF]
    apply ih _ (rank + 1) hnd2
    intro e he
    have hcpos : 0 < (1 / (k + (rank : ℚ) + 1)) * w := contribution_pos hk hw rank
    have hcle : (1 / (k + (rank : ℚ) + 1)) * w ≤ (1 / (k + 1)) * w :=
      contribution_le hk hw rank
    rw [mapUpdate] at he
    split at he
    · obtain ⟨e0, he0, heq⟩ := List.mem_map.1 he
      have hb := hm e0 he0
      by_cases hkey : e0.1 = r.file_path
      · have he2 : e = (e0.1, e0.2.1 + (1 / (k + (rank : ℚ) + 1)) * w,
            if e0.2.2.isNone then some r else e0.2.2) := by
          rw [← heq]
          simp [hkey]
        have hbudget : e0.2.1 ≤ C := hb.2.2.1 (by
          rw [List.map_cons, hkey]
          exact List.mem_cons_self _ _)
        rw [he2]
        refine ⟨add_pos hb.1 hcpos, ?_, ?_, ?_⟩
        · calc e0.2.1 + (1 / (k + (rank : ℚ) + 1)) * w
              ≤ C + (1 / (k + 1)) * w := add_le_add hbudget hcle
            _ ≤ B := hCB
        · intro hmem
          exact absurd (hkey ▸ hmem) hnotin
        · rcases hsome : e0.2.2 with _ | v
          · simp
          · simp
      · have he2 : e = e0 := by
          rw [← heq]
          simp [hkey]
        rw [he2]
        exact ⟨hb.1, hb.2.1, fun hmem =>
          hb.2.2.1 (by rw [List.map_cons]; exact List.mem_cons_of_mem _ hmem),
          hb.2.2.2⟩
    · rcases List.mem_append.1 he with h1 | h1
      · have hb := hm e h1
        exact ⟨hb.1, hb.2.1, fun hmem =>
          hb.2.2.1 (by rw [List.map_cons]; exact List.mem_cons_of_mem _ hmem),
          hb.2.2.2⟩
      · have he2 : e = (r.file_path, (1 / (k + (rank : ℚ) + 1)) * w, some r) := by
          simpa using h1
        rw [he2]
        refine ⟨hcpos, ?_, ?_, rfl⟩
        · calc (1 / (k + (rank : ℚ) + 1)) * w ≤ (1 / (k + 1)) * w := hcle
            _ = 0 + (1 / (k + 1)) * w := (zero_add _).symm
            _ ≤ C + (1 / (k + 1)) * w := by linarith
            _ ≤ B := hCB
        · intro hmem
          exact absurd hmem hnotin

/-- Entry positivity needs no distinctness hypothesis: every contribution is
positive, so every accumulated score is. -/
theorem processRRF_pos (w k : ℚ) (hw : 0 < w) (hk : 0 ≤ k) :
    ∀ (l : List RankedResult) (m : ScoreMap) (rank : Nat),
      (∀ e ∈ m, 0 < e.2.1 ∧ e.2.2.isSome) →
      ∀ e ∈ processRRF w k m rank l, 0 < e.2.1 ∧ e.2.2.isSome := by
  intro l
  induction l with
  | nil =>
    intro m rank hm e he
    rw [processRRF] at he
    exact hm e he
  | cons r rs ih =>
    intro m rank hm
    rw [processRRF]
    apply ih _ (rank + 1)
    intro e he
    have hcpos : 0 < (1 / (k + (rank : ℚ) + 1)) * w := contribution_pos hk hw rank
    rw [mapUpdate] at he
    split at he
    · obtain ⟨e0, he0, heq⟩ := List.mem_map.1 he
      have hb := hm e0 he0
      by_cases hkey : e0.1 = r.file_path
      · have he2 : e = (e0.1, e0.2.1 + (1 / (k + (rank : ℚ) + 1)) * w,
            if e0.2.2.isNone then some r else e0.2.2) := by
          rw [← heq]
          simp [hkey]
        rw [he2]
        refine ⟨add_pos hb.1 hcpos, ?_⟩
        rcases hsome : e0.2.2 with _ | v
        · simp
        · simp
      · have he2 : e = e0 := by
          rw [← heq]
          simp [hkey]
        rw [he2]
        exact hb
    · rcases List.mem_append.1 he with h1 | h1
      · exact hm e h1
      · have he2 : e = (r.file_path, (1 / (k + (rank : ℚ) + 1)) * w, some r) := by
          simpa using h1
        rw [he2]
        exact ⟨hcpos, rfl⟩

theorem buildScores_bounds (lex sem : List RankedResult)
    (hlex : (lex.map (·.file_path)).Nodup) (hsem : (sem.map (·.file_path)).Nodup) :
    ∀ e ∈ buildScores (1/2) 60 lex sem,
      0 < e.2.1 ∧ e.2.1 ≤ 1/61 ∧ e.2.2.isSome := by
  have h1 := processRRF_bounds (1/2) 60 0 (1/122) (by norm_num) (by norm_num)
    le_rfl (by norm_num) lex [] 0 hlex (by simp)
  have h2 := processRRF_bounds (1 - 1/2) 60 (1/122) (1/61) (by norm_num)
    (by norm_num) (by norm_num) (by norm_num) sem
    (processRRF (1/2) 60 [] 0 lex) 0 hsem
    (fun e0 he0 => ⟨(h1 e0 he0).1, le_trans (h1 e0 he0).2.1 (by norm_num),
      fun _ => (h1 e0 he0).2.1, (h1 e0 he0).2.2⟩)
  intro e he
  exact h2 e he

theorem buildScores_pos (lex sem : List RankedResult) :
    ∀ e ∈ buildScores (1/2) 60 lex sem, 0 < e.2.1 ∧ e.2.2.isSome := by
  have h1 := processRRF_pos (1/2) 60 (by norm_num) (by norm_num) lex [] 0 (by simp)
  have h2 := processRRF_pos (1 - 1/2) 60 (by norm_num) (by norm_num) sem
    (processRRF (1/2) 60 [] 0 lex) 0 h1
  intro e he
  exact h2 e he

theorem finalize_mem {drained : ScoreMap} {limit : Nat} {r : RankedResult}
    (hr : r ∈ finalizeRRF drained limit) :
    ∃ e ∈ drained, r.score = e.2.1 := by
  unfold finalizeRRF at hr
  have h2 := List.mem_of_mem_take hr
  rw [mem_sortDesc] at h2
  obtain ⟨e, he, heq⟩ := List.mem_filterMap.1 h2
  obtain ⟨r0, _, hmap⟩ := Option.map_eq_some'.1 heq
  exact ⟨e, he, by rw [← hmap]⟩

/-- C3 (amended): under the default configuration (alpha = 1/2, k = 60) and
for input lists in which no file_path repeats within a list, every fused
score lies in the half-open interval (0, 1/61] — positive and at most
1/(k+1), with 1/61 attained exactly by a document ranked first in both
lists, so the interval is closed at the top, and without the
per-list-distinct-paths hypothesis repeated keys can push a score above
1/61. -/
theorem rrf_fused_score_range (lex sem : List RankedResult) (limit : Nat)
    (drained : ScoreMap)
    (hlex : (lex.map (·.file_path)).Nodup)
    (hsem : (sem.map (·.file_path)).Nodup)
    (hperm : drained.Perm (buildScores (1/2) 60 lex sem)) :
    ∀ r ∈ finalizeRRF drained limit, 0 < r.score ∧ r.score ≤ 1/61 := by
  intro r hr
  obtain ⟨e, he, hscore⟩ := finalize_mem hr
  have hb := buildScores_bounds lex sem hlex hsem e (hperm.mem_iff.1 he)
  exact ⟨hscore ▸ hb.1, hscore ▸ hb.2.1⟩

theorem rrf_fused_score_range_witness :
    0 < (⟨"a", 1/122, .hybrid, 1, 2, "pa", none⟩ : RankedResult).score ∧
    (⟨"a", 1/122, .hybrid, 1, 2, "pa", none⟩ : RankedResult).score ≤ 1/61 :=
  rrf_fused_score_range [⟨"a", 10, .lexical, 1, 2, "pa", none⟩] [] 1
    (buildScores (1/2) 60 [⟨"a", 10, .lexical, 1, 2, "pa", none⟩] [])
    (by simp) (by simp) (List.Perm.refl _) _
    (by norm_num +decide [finalizeRRF, buildScores, processRRF, mapUpdate, sortDesc,
          insertDesc, List.filterMap_cons, List.filterMap_nil, List.foldl_cons,
          List.foldl_nil, List.take_succ_cons, Option.isNone])

/-- C3 counterexample: the claim's open upper bound fails.  A document
ranked first in both lists gets fused score exactly 1/61 (not strictly
below), and with a file_path repeated inside one list (as happens for
multiple chunks of one file) every fused score of that run exceeds 1/61. -/
theorem rrf_fused_score_counterexample :
    ((rrf_fusion (1/2) 60 [⟨"d", 10, .lexical, 1, 2, "p", none⟩]
        [⟨"d", 9/10, .semantic, 1, 2, "p", none⟩] 10).map (·.score)) = [1/61] ∧
    ((rrf_fusion (1/2) 60
        [⟨"a", 10, .lexical, 1, 2, "p", none⟩,
         ⟨"a", 9, .lexical, 1, 2, "p", none⟩,
         ⟨"a", 8, .lexical, 1, 2, "p", none⟩] [] 3).map (·.score))
      = [11531/476532] ∧
    (1 : ℚ)/61 < 11531/476532 := by
  refine ⟨?_, ?_, by norm_num⟩ <;>
    norm_num +decide [rrf_fusion, finalizeRRF, buildScores, processRRF, mapUpdate,
      sortDesc, insertDesc, List.filterMap_cons, List.filterMap_nil, List.foldl_cons,
      List.foldl_nil, List.take_succ_cons, Option.isNone]

/-- C4 (amended): for every admissible hash-map iteration order (any
permutation of the accumulated entries), the fused list is sorted by score
in descending order, truncated to at most `limit` elements, and every fused
score is positive (in particular no NaN); the order among equal-score
results is the iteration order preserved by the stable sort, which is not
determined by the inputs. -/
theorem rrf_fusion_sorted_truncated (lex sem : List RankedResult) (limit : Nat)
    (drained : ScoreMap)
    (hperm : drained.Perm (buildScores (1/2) 60 lex sem)) :
    (finalizeRRF drained limit).Pairwise (fun a b => b.score ≤ a.score) ∧
    (finalizeRRF drained limit).length ≤ limit ∧
    ∀ r ∈ finalizeRRF drained limit, 0 < r.score := by
  refine ⟨?_, ?_, ?_⟩
  · exact List.Pairwise.sublist (List.take_sublist _ _) (sortDesc_sorted _)
  · unfold finalizeRRF
    rw [List.length_take]
    exact min_le_left _ _
  · intro r hr
    obtain ⟨e, he, hscore⟩ := finalize_mem hr
    have hb := buildScores_pos lex sem e (hperm.mem_iff.1 he)
    exact hscore ▸ hb.1

theorem rrf_fusion_sorted_truncated_witness :
    (finalizeRRF (buildScores (1/2) 60 [⟨"a", 10, .lexical, 1, 2, "pa", none⟩]
        [⟨"b", 9/10, .semantic, 3, 4, "pb", none⟩]) 2).Pairwise
      (fun a b => b.score ≤ a.score) ∧
    (finalizeRRF (buildScores (1/2) 60 [⟨"a", 10, .lexical, 1, 2, "pa", none⟩]
        [⟨"b", 9/10, .semantic, 3, 4, "pb", none⟩]) 2).length ≤ 2 ∧
    0 < (⟨"a", 1/122, .hybrid, 1, 2, "pa", none⟩ : RankedResult).score :=
  ⟨(rrf_fusion_sorted_truncated [⟨"a", 10, .lexical, 1, 2, "pa", none⟩]
      [⟨"b", 9/10, .semantic, 3, 4, "pb", none⟩] 2 _ (List.Perm.refl _)).1,
   (rrf_fusion_sorted_truncated [⟨"a", 10, .lexical, 1, 2, "pa", none⟩]
      [⟨"b", 9/10, .semantic, 3, 4, "pb", none⟩] 2 _ (List.Perm.refl _)).2.1,
   (rrf_fusion_sorted_truncated [⟨"a", 10, .lexical, 1, 2, "pa", none⟩]
      [⟨"b", 9/10, .semantic, 3, 4, "pb", none⟩] 2 _ (List.Perm.refl _)).2.2
     _ (by norm_num +decide [finalizeRRF, buildScores, processRRF, mapUpdate,
          sortDesc, insertDesc, List.filterMap_cons, List.filterMap_nil,
          List.foldl_cons, List.foldl_nil, List.take_succ_cons, Option.isNone])⟩

/-- C4 counterexample: tie order is not insertion order and the output is
not a deterministic function of the inputs.  With one lexical-only and one
semantic-only document both fused scores are exactly 1/122; the reversed
entry order is also a permutation of the accumulated map (so an admissible
`HashMap` iteration order), yet it yields a different output list. -/
theorem rrf_fusion_tie_counterexample :
    ((buildScores (1/2) 60 [⟨"a", 10, .lexical, 1, 2, "pa", none⟩]
        [⟨"b", 9/10, .semantic, 3, 4, "pb", none⟩]).reverse).Perm
      (buildScores (1/2) 60 [⟨"a", 10, .lexical, 1, 2, "pa", none⟩]
        [⟨"b", 9/10, .semantic, 3, 4, "pb", none⟩]) ∧
    finalizeRRF ((buildScores (1/2) 60 [⟨"a", 10, .lexical, 1, 2, "pa", none⟩]
        [⟨"b", 9/10, .semantic, 3, 4, "pb", none⟩]).reverse) 2 ≠
      finalizeRRF (buildScores (1/2) 60 [⟨"a", 10, .lexical, 1, 2, "pa", none⟩]
        [⟨"b", 9/10, .semantic, 3, 4, "pb", none⟩]) 2 := by
  have hbs : buildScores (1/2) 60 [⟨"a", 10, .lexical, 1, 2, "pa", none⟩]
      [⟨"b", 9/10, .semantic, 3, 4, "pb", none⟩] =
      [("a", 1/122, some ⟨"a", 10, .lexical, 1, 2, "pa", none⟩),
       ("b", 1/122, some ⟨"b", 9/10, .semantic, 3, 4, "pb", none⟩)] := by
    norm_num +decide [buildScores, processRRF, mapUpdate, Option.isNone]
  refine ⟨List.reverse_perm _, ?_⟩
  rw [hbs]
  norm_num +decide [finalizeRRF, sortDesc, insertDesc, List.filterMap_cons,
    List.filterMap_nil, List.foldl_cons, List.foldl_nil, List.take_succ_cons]

end Seekr
